import Mathlib

/-!
Shallow embedding of the statistical models of `molll/molll.py`.

A molecule enters the models only through its Morgan fingerprint, a mapping
from integer fragment keys to occurrence counts produced by the external
chemistry toolkit (`BaseLL._get_fp`).  The extractor is an out-of-scope
boundary, so a molecule is represented here directly by its fingerprint,
modelled as an association list.  Python `dict`/`Counter` iteration order is
insertion order, which the association lists preserve: existing keys keep
their position, new keys are appended at the end.
-/

namespace Molll

/-- A fingerprint: association list from fragment key to occurrence count
(`fp.GetNonzeroElements()` in the source). -/
abbrev FP := List (Nat × Nat)

/-- Python `sum(fp.values())`. -/
def fpTotal (fp : FP) : Nat := (fp.map Prod.snd).sum

/-- A Python `Counter` with `Nat` keys and values: association list,
first-match lookup, and a default of `0` for missing keys
(`Counter.__missing__` returns 0 and does not insert). -/
abbrev Counter := List (Nat × Nat)

/-- Python `counter[k]`: first-match lookup, `0` when absent. -/
def cget : Counter → Nat → Nat
  | [], _ => 0
  | p :: rest, k => if p.1 = k then p.2 else cget rest k

/-- Python `Counter.update` with a single key/value: add `v` to the entry at `k`,
appending a fresh entry at the end when `k` is absent. -/
def cincBy : Counter → Nat → Nat → Counter
  | [], k, v => [(k, v)]
  | p :: rest, k, v => if p.1 = k then (p.1, p.2 + v) :: rest else p :: cincBy rest k v

/-- Python `counter.update([k])`: increment the frequency at `k` by one. -/
def cinc (c : Counter) (k : Nat) : Counter := cincBy c k 1

/-- Python `sum(counter.values())`. -/
def csum (c : Counter) : Nat := (c.map Prod.snd).sum

/-- Python `sum(count * freq for count, freq in counter.items())`. -/
def counterSum (c : Counter) : Nat := (c.map (fun p => p.1 * p.2)).sum

/-- Python `max(counter.keys())`.  The source raises `ValueError` on an empty
counter; that case never arises for the counters built by `fit`, and the
model returns `0` there. -/
def maxKey (c : Counter) : Nat := (c.map Prod.fst).foldr max 0

/-- The Laplace-smoothed likelihood
`(stat_count + self.smoothing) / (self._n_observations + self.estimated_keyspace * self.smoothing)`
shared verbatim by `AtomLL.calculate_ll` and `MolLL.calculate_ll`. -/
noncomputable def laplace (stat : Nat) (sm ek : ℝ) (nobs : Nat) : ℝ :=
  ((stat : ℝ) + sm) / ((nobs : ℝ) + ek * sm)

/-! ## AtomLL ("FrequencyModel") -/

/-- The state of an `AtomLL` instance.  `_key_data` is a `Counter` over
fragment keys; the unfit `None` is modelled as the empty counter. -/
structure AtomState where
  smoothing : ℝ
  estimated_keyspace : ℝ
  alpha : ℝ
  radius : Nat
  n_observations : Nat
  key_data : Counter

namespace AtomLL

/-- Constructor `AtomLL.__init__`. -/
def init (sm ek al : ℝ) (r : Nat) : AtomState :=
  { smoothing := sm, estimated_keyspace := ek, alpha := al, radius := r
    n_observations := 0, key_data := [] }

/-- The accumulation loop of `AtomLL.fit`:
`self._key_data = Counter(); for mol in mols: self._key_data.update(self._get_fp(mol))`. -/
def accumulate (mols : List FP) : Counter :=
  mols.foldl (fun kd fp => fp.foldl (fun kd p => cincBy kd p.1 p.2) kd) []

/-- Method `AtomLL.fit` followed by `AtomLL._calculate_observations`. -/
def fit (s : AtomState) (mols : List FP) : AtomState :=
  let kd := accumulate mols
  { s with key_data := kd, n_observations := csum kd }

open Classical in
/-- Method `AtomLL.calculate_ll`.  The per-key loop accumulates
`ll += log(likelihood) * num_atoms` and `atom_count += num_atoms`; the final
division `ll / atom_count ** alpha` raises `ZeroDivisionError` exactly when
the denominator is zero, modelled by `none`.  (`**` on a real exponent is
`Real.rpow`, matching Python `0 ** 0 == 1`.) -/
noncomputable def calculate_ll (s : AtomState) (mol : FP) : Option ℝ :=
  let ll : ℝ :=
    (mol.map (fun p => Real.log (laplace (cget s.key_data p.1) s.smoothing s.estimated_keyspace s.n_observations) * (p.2 : ℝ))).sum
  let atom_count : Nat := fpTotal mol
  if ((atom_count : ℝ) ^ s.alpha : ℝ) = 0 then none
  else some (ll / ((atom_count : ℝ) ^ s.alpha))

/-- Method `BaseLL.calculate_lls` for `AtomLL`: `calculate_ll` has no side effect
on the state (Counter lookups do not insert), so the list comprehension is a
plain map. -/
noncomputable def calculate_lls (s : AtomState) (mols : List FP) : List (Option ℝ) :=
  mols.map (calculate_ll s)

end AtomLL

/-! ## MolLL ("CountDistributionModel") -/

/-- The key type of `MolLL._key_data`: integer fragment keys plus the
reserved string key `"SampleObservationSum"`. -/
inductive FPKey where
  | frag (k : Nat)
  | sos
deriving DecidableEq, Repr

/-- Container `MolLL._key_data`: `defaultdict(lambda: Counter())`, insertion ordered. -/
abbrev KeyData := List (FPKey × Counter)

/-- Plain lookup of the counter stored at `K` (empty when absent). -/
def kdlookup : KeyData → FPKey → Counter
  | [], _ => []
  | e :: rest, K => if e.1 = K then e.2 else kdlookup rest K

/-- Whether `K` is a key of the dict. -/
def kdHas : KeyData → FPKey → Bool
  | [], _ => false
  | e :: rest, K => e.1 = K || kdHas rest K

/-- Lookup `self._key_data[key]` on the `defaultdict`: returns the stored counter,
or inserts (at the end, per dict insertion order) and returns a fresh empty
`Counter()` when `key` is absent.  The second component is the dict after
the lookup. -/
def ddget (kd : KeyData) (K : FPKey) : Counter × KeyData :=
  if kdHas kd K then (kdlookup kd K, kd) else ([], kd ++ [(K, [])])

/-- Update `self._key_data[key].update([cnt])`: increment by one the frequency the
counter at `key` holds for `cnt`, inserting key and counter as needed. -/
def kdInc : KeyData → FPKey → Nat → KeyData
  | [], K, cnt => [(K, [(cnt, 1)])]
  | e :: rest, K, cnt =>
      if e.1 = K then (e.1, cinc e.2 cnt) :: rest else e :: kdInc rest K cnt

/-- Method `MolLL._calculate_observations`: sum of `count * frequency` over every
entry of every inner counter. -/
def observationsOf (kd : KeyData) : Nat := (kd.map (fun e => counterSum e.2)).sum

/-- Total fragment occurrences of a training set: `Σ_mol sum(fp.values())`. -/
def totalOcc (mols : List FP) : Nat := (mols.map fpTotal).sum

/-- The state of a `MolLL` instance. -/
structure MolState where
  smoothing : ℝ
  estimated_keyspace : ℝ
  alpha : ℝ
  radius : Nat
  n_observations : Nat
  key_data : KeyData

namespace MolLL

/-- Constructor `MolLL.__init__`. -/
def init (sm ek al : ℝ) (r : Nat) : MolState :=
  { smoothing := sm, estimated_keyspace := ek, alpha := al, radius := r
    n_observations := 0, key_data := [] }

/-- The per-molecule body of the `MolLL.fit` loop: count the count of each
fragment key, then record the molecule total under `"SampleObservationSum"`. -/
def processMol (kd : KeyData) (fp : FP) : KeyData :=
  kdInc (fp.foldl (fun kd p => kdInc kd (FPKey.frag p.1) p.2) kd) FPKey.sos (fpTotal fp)

/-- The accumulation loop of `MolLL.fit` over all molecules, starting from a
fresh empty `defaultdict`. -/
def accumulate (mols : List FP) : KeyData := mols.foldl processMol []

/-- Python `math.ceil(np.exp(np.mean(np.log(np.array([a, b, c]) + 0.15))))`:
the ceiling of the geometric mean of the three neighbour frequencies each
incremented by 0.15.  The result is a positive integer (the ceiling of a
positive real, see `one_le_geomSmooth`), stored back into the `Nat`-valued
counter via `Int.toNat`. -/
noncomputable def geomSmooth (a b c : Nat) : Nat :=
  (⌈Real.exp ((Real.log ((a : ℝ) + 0.15) + Real.log ((b : ℝ) + 0.15) +
      Real.log ((c : ℝ) + 0.15)) / 3)⌉).toNat

/-- Method `MolLL._smooth_counter`: a fresh counter with
`smoothed[1] = counter[1]` and, for `key in range(2, max(counter.keys()) + 1)`,
`smoothed[key]` the ceiling of the geometric mean of the `0.15`-shifted
frequencies at `key-1`, `key`, `key+1`.  `range(2, max+1)` has `max - 1`
elements. -/
noncomputable def smooth_counter (c : Counter) : Counter :=
  (1, cget c 1) ::
    (List.range' 2 (maxKey c - 1)).map
      (fun k => (k, geomSmooth (cget c (k - 1)) (cget c k) (cget c (k + 1))))

/-- Method `MolLL._smooth_all_counters`: replace every stored counter by its
smoothed version (in-place value assignment keeps dict order). -/
noncomputable def smoothAll (kd : KeyData) : KeyData :=
  kd.map (fun e => (e.1, smooth_counter e.2))

/-- Method `MolLL.fit`: accumulate, then `_calculate_observations` on the raw
counters, then `_smooth_all_counters` (in that order in the source). -/
noncomputable def fit (s : MolState) (mols : List FP) : MolState :=
  let kd := accumulate mols
  { s with key_data := smoothAll kd, n_observations := observationsOf kd }

/-- The scoring loop of `MolLL.calculate_ll` over
`list(fp.items()) + [("SampleObservationSum", sum(fp.values()))]`.
Each iteration looks the fragment key up in the `defaultdict` (which inserts
an empty counter when the key is missing), reads the smoothed frequency of
the observed count, and accumulates `ll += log(likelihood) * counts` and
`atom_count += counts`.  Returns `(ll, atom_count, final dict)`. -/
noncomputable def scoreLoop (sm ek : ℝ) (nobs : Nat) :
    List (FPKey × Nat) → KeyData → ℝ × Nat × KeyData
  | [], kd => (0, 0, kd)
  | it :: rest, kd =>
      let r := ddget kd it.1
      let contrib := Real.log (laplace (cget r.1 it.2) sm ek nobs) * (it.2 : ℝ)
      let rec' := scoreLoop sm ek nobs rest r.2
      (contrib + rec'.1, it.2 + rec'.2.1, rec'.2.2)

open Classical in
/-- Method `MolLL.calculate_ll`.  Besides the score it returns the updated state:
the `defaultdict` lookups insert empty counters for unseen fragment keys.
As in `AtomLL.calculate_ll`, the final `ll / atom_count ** alpha` raises
`ZeroDivisionError` exactly when the denominator is zero (`none`); the
mutation of `_key_data` has happened by then either way. -/
noncomputable def calculate_ll (s : MolState) (mol : FP) : Option ℝ × MolState :=
  let items := mol.map (fun p => (FPKey.frag p.1, p.2)) ++ [(FPKey.sos, fpTotal mol)]
  let r := scoreLoop s.smoothing s.estimated_keyspace s.n_observations items s.key_data
  let s' := { s with key_data := r.2.2 }
  (if ((r.2.1 : ℝ) ^ s.alpha : ℝ) = 0 then none
   else some (r.1 / ((r.2.1 : ℝ) ^ s.alpha)), s')

/-- Method `BaseLL.calculate_lls` for `MolLL`: the list comprehension evaluates
`calculate_ll` left to right, threading the (mutated) state. -/
noncomputable def calculate_lls (s : MolState) : List FP → List (Option ℝ) × MolState
  | [] => ([], s)
  | m :: rest =>
      let r := calculate_ll s m
      let rr := calculate_lls r.2 rest
      (r.1 :: rr.1, rr.2)

end MolLL

/-- Agreement of everything `MolLL.calculate_ll` reads from a state: the
configuration fields, the observation count, and every frequency reachable
through the key-data lookups.  Two states related this way produce the same
scores. -/
def ScoreEquiv (s t : MolState) : Prop :=
  s.smoothing = t.smoothing ∧ s.estimated_keyspace = t.estimated_keyspace ∧
  s.alpha = t.alpha ∧ s.n_observations = t.n_observations ∧
  ∀ K n, cget (kdlookup s.key_data K) n = cget (kdlookup t.key_data K) n

/-! ## Persistence (`BaseLL.get_savedict` / `BaseLL.set_savedict`)

`save` dumps the savedict as JSON and `load` parses it back; JSON object
keys are strings, so the integer keys of `_key_data` (and of the inner
counters of `MolLL`) are serialized as their decimal digit strings and
reconstructed with `int(...)` on load.  The decimal string of a natural
number is modelled by its digit list `Nat.digits 10`. -/

/-- A serialized `_key_data` key of `MolLL`: either the digit string of an
integer fragment key, or the literal reserved string
`"SampleObservationSum"` (which `_set_keydata_from_dict` leaves textual). -/
inductive SerKey where
  | num (ds : List Nat)
  | sosTag
deriving DecidableEq, Repr

/-- The serialized `_key_data` value: shape depends on the model class. -/
inductive KeyDataDump where
  | atomKD (d : List (List Nat × Nat))
  | molKD (d : List (SerKey × List (List Nat × Nat)))
deriving DecidableEq, Repr

/-- The savedict produced by `BaseLL.get_savedict`: the class-name tag plus
the `_properties` list (`smoothing`, `estimated_keyspace`, `alpha`,
`_radius`, `_n_observations`) and the serialized `_key_data`. -/
structure SaveDict where
  Model : String
  smoothing : ℝ
  estimated_keyspace : ℝ
  alpha : ℝ
  radius : Nat
  n_observations : Nat
  key_data : KeyDataDump

namespace AtomLL

/-- Method `AtomLL.get_savedict` (with the JSON stringification of the keys that
`save`/`load` perform on the wire format). -/
def get_savedict (s : AtomState) : SaveDict :=
  { Model := "AtomLL", smoothing := s.smoothing
    estimated_keyspace := s.estimated_keyspace, alpha := s.alpha
    radius := s.radius, n_observations := s.n_observations
    key_data := .atomKD (s.key_data.map (fun p => (Nat.digits 10 p.1, p.2))) }

/-- Method `AtomLL.set_savedict`: the `assert` on the `Model` tag runs first, so a
mismatch raises (second component `some message`) before any field is
written and the target state is returned unchanged.  On a matching tag every
`_properties` field and `_key_data` are overwritten;
`AtomLL._set_keydata_from_dict` rebuilds the integer keys with `int(key)`.
A matching tag with `MolLL`-shaped `_key_data` cannot arise from
`get_savedict`; the source would silently build a `Counter` of nested dicts
there, which the `Nat`-valued counter cannot represent, modelled as an empty
counter. -/
def set_savedict (d : SaveDict) (s : AtomState) : AtomState × Option String :=
  if d.Model = "AtomLL" then
    match d.key_data with
    | .atomKD l =>
        ({ smoothing := d.smoothing, estimated_keyspace := d.estimated_keyspace
           alpha := d.alpha, radius := d.radius
           n_observations := d.n_observations
           key_data := l.map (fun p => (Nat.ofDigits 10 p.1, p.2)) }, none)
    | .molKD _ =>
        ({ smoothing := d.smoothing, estimated_keyspace := d.estimated_keyspace
           alpha := d.alpha, radius := d.radius
           n_observations := d.n_observations, key_data := [] }, none)
  else
    (s, some ("Save data is of model type " ++ d.Model ++
      ", which cannot be loaded into a model of class AtomLL"))

end AtomLL

namespace MolLL

/-- Deserialize one outer `_key_data` key, as in
`MolLL._set_keydata_from_dict`: every key other than
`"SampleObservationSum"` is converted back with `int(fpkey)`. -/
def decKey : SerKey → FPKey
  | .num ds => .frag (Nat.ofDigits 10 ds)
  | .sosTag => .sos

/-- Serialize one outer `_key_data` key (JSON stringification). -/
def encKey : FPKey → SerKey
  | .frag k => .num (Nat.digits 10 k)
  | .sos => .sosTag

/-- Method `MolLL.get_savedict` (with the JSON stringification of the outer and
inner keys that `save`/`load` perform on the wire format). -/
def get_savedict (s : MolState) : SaveDict :=
  { Model := "MolLL", smoothing := s.smoothing
    estimated_keyspace := s.estimated_keyspace, alpha := s.alpha
    radius := s.radius, n_observations := s.n_observations
    key_data := .molKD (s.key_data.map (fun e =>
      (encKey e.1, e.2.map (fun p => (Nat.digits 10 p.1, p.2))))) }

/-- Method `MolLL.set_savedict`: the `assert` on the `Model` tag runs first (on a
mismatch the target is returned unchanged with the error message).  On a
matching tag the `_properties` fields are overwritten and
`MolLL._set_keydata_from_dict` rebuilds `_key_data`, converting every outer
key except `"SampleObservationSum"` and every inner counter key back to
integers.  A matching tag with `AtomLL`-shaped `_key_data` cannot arise from
`get_savedict`; there the source raises `AttributeError` (`int` has no
`.items()`) after the property fields were already overwritten but before
`self._key_data` is reassigned. -/
def set_savedict (d : SaveDict) (s : MolState) : MolState × Option String :=
  if d.Model = "MolLL" then
    match d.key_data with
    | .molKD l =>
        ({ smoothing := d.smoothing, estimated_keyspace := d.estimated_keyspace
           alpha := d.alpha, radius := d.radius
           n_observations := d.n_observations
           key_data := l.map (fun e =>
             (decKey e.1, e.2.map (fun p => (Nat.ofDigits 10 p.1, p.2)))) }, none)
    | .atomKD _ =>
        ({ smoothing := d.smoothing, estimated_keyspace := d.estimated_keyspace
           alpha := d.alpha, radius := d.radius
           n_observations := d.n_observations
           key_data := s.key_data }, some "AttributeError")
  else
    (s, some ("Save data is of model type " ++ d.Model ++
      ", which cannot be loaded into a model of class MolLL"))

end MolLL

/-! ## Basic lemmas about counters and key data -/

theorem cget_le_csum (c : Counter) (k : Nat) : cget c k ≤ csum c := by
  induction c with
  | nil => simp [cget, csum]
  | cons p rest ih =>
      by_cases h : p.1 = k
      · simp [cget, csum, h]
      · simp only [cget, csum, List.map_cons, List.sum_cons, if_neg h]
        exact le_trans ih (Nat.le_add_left _ _)

theorem mul_cget_le_counterSum (c : Counter) (k : Nat) :
    k * cget c k ≤ counterSum c := by
  induction c with
  | nil => simp [cget, counterSum]
  | cons p rest ih =>
      by_cases h : p.1 = k
      · simp only [cget, counterSum, List.map_cons, List.sum_cons, if_pos h, ← h]
        exact Nat.le_add_right _ _
      · simp only [cget, counterSum, List.map_cons, List.sum_cons, if_neg h]
        exact le_trans ih (Nat.le_add_left _ _)

theorem cget_le_counterSum (c : Counter) (k : Nat) (hk : 1 ≤ k) :
    cget c k ≤ counterSum c :=
  le_trans (Nat.le_mul_of_pos_left _ hk) (mul_cget_le_counterSum c k)

theorem cget_eq_zero_of_counterSum_eq_zero (c : Counter) (k : Nat) (hk : 1 ≤ k)
    (h : counterSum c = 0) : cget c k = 0 :=
  Nat.le_zero.mp (h ▸ cget_le_counterSum c k hk)

theorem counterSum_cons (p : Nat × Nat) (l : Counter) :
    counterSum (p :: l) = p.1 * p.2 + counterSum l := by
  simp [counterSum]

theorem cget_cincBy (c : Counter) (k v j : Nat) :
    cget (cincBy c k v) j = cget c j + if j = k then v else 0 := by
  induction c with
  | nil =>
      simp only [cincBy, cget]
      by_cases h : k = j
      · subst h; simp
      · rw [if_neg h, if_neg fun e => h e.symm]
  | cons p rest ih =>
      simp only [cincBy]
      by_cases h : p.1 = k
      · rw [if_pos h]
        simp only [cget]
        by_cases hj : p.1 = j
        · rw [if_pos hj, if_pos hj, if_pos (hj ▸ h)]
        · rw [if_neg hj, if_neg hj, if_neg fun e => hj (h.trans e.symm), Nat.add_zero]
      · rw [if_neg h]
        simp only [cget]
        by_cases hj : p.1 = j
        · rw [if_pos hj, if_pos hj, if_neg fun e => h ((hj.trans e) : p.1 = k), Nat.add_zero]
        · rw [if_neg hj, if_neg hj, ih]

theorem counterSum_cinc (c : Counter) (k : Nat) :
    counterSum (cinc c k) = counterSum c + k := by
  unfold cinc
  induction c with
  | nil => simp [cincBy, counterSum]
  | cons p rest ih =>
      obtain ⟨a, b⟩ := p
      by_cases h : a = k
      · subst h
        simp [cincBy, counterSum_cons, Nat.mul_succ]
        omega
      · simp only [cincBy, if_neg h, counterSum_cons]
        omega

theorem mem_cinc (c : Counter) (k : Nat) (p : Nat × Nat) (hp : p ∈ cinc c k) :
    p ∈ c ∨ p.2 = 1 ∨ ∃ q ∈ c, p = (q.1, q.2 + 1) := by
  unfold cinc at hp
  induction c with
  | nil =>
      simp [cincBy] at hp
      subst hp; simp
  | cons q rest ih =>
      by_cases h : q.1 = k
      · simp only [cincBy, if_pos h, List.mem_cons] at hp
        rcases hp with h1 | h2
        · exact Or.inr (Or.inr ⟨q, List.mem_cons_self .., h1⟩)
        · exact Or.inl (List.mem_cons_of_mem _ h2)
      · simp only [cincBy, if_neg h, List.mem_cons] at hp
        rcases hp with h1 | h2
        · exact Or.inl (h1 ▸ List.mem_cons_self ..)
        · rcases ih h2 with h3 | h3 | ⟨r, hr, h3⟩
          · exact Or.inl (List.mem_cons_of_mem _ h3)
          · exact Or.inr (Or.inl h3)
          · exact Or.inr (Or.inr ⟨r, List.mem_cons_of_mem _ hr, h3⟩)

/-- All frequencies of a counter built by repeated `cinc` are at least 1. -/
theorem one_le_of_mem_cinc (c : Counter) (k : Nat)
    (h : ∀ p ∈ c, 1 ≤ p.2) : ∀ p ∈ cinc c k, 1 ≤ p.2 := by
  intro p hp
  rcases mem_cinc c k p hp with h1 | h1 | ⟨q, hq, h1⟩
  · exact h p h1
  · omega
  · rw [h1]; simp

theorem kdlookup_kdInc (kd : KeyData) (K J : FPKey) (cnt : Nat) :
    kdlookup (kdInc kd K cnt) J =
      if J = K then cinc (kdlookup kd K) cnt else kdlookup kd J := by
  induction kd with
  | nil =>
      simp only [kdInc, kdlookup]
      by_cases h : K = J
      · subst h; simp [cinc, cincBy]
      · rw [if_neg h, if_neg fun e => h e.symm]
  | cons e rest ih =>
      simp only [kdInc]
      by_cases h : e.1 = K
      · rw [if_pos h]
        simp only [kdlookup]
        by_cases hj : e.1 = J
        · rw [if_pos hj, if_pos hj, if_pos (hj ▸ h), if_pos h]
        · rw [if_neg hj, if_neg hj, if_neg fun ee => hj (h.trans ee.symm)]
      · rw [if_neg h]
        simp only [kdlookup]
        by_cases hj : e.1 = J
        · rw [if_pos hj, if_pos hj, if_neg fun ee => h ((hj.trans ee) : e.1 = K)]
        · rw [if_neg hj, if_neg hj, ih]
          by_cases hJK : J = K
          · rw [if_pos hJK, if_pos hJK, if_neg h]
          · rw [if_neg hJK, if_neg hJK]

theorem kdlookup_eq_nil_of_not_has (kd : KeyData) (K : FPKey)
    (h : kdHas kd K = false) : kdlookup kd K = [] := by
  induction kd with
  | nil => rfl
  | cons e rest ih =>
      simp only [kdHas, Bool.or_eq_false_iff, decide_eq_false_iff_not] at h
      simp only [kdlookup, if_neg h.1]
      exact ih h.2

theorem ddget_fst (kd : KeyData) (K : FPKey) :
    (ddget kd K).1 = kdlookup kd K := by
  unfold ddget
  by_cases h : kdHas kd K
  · rw [if_pos h]
  · rw [if_neg h, kdlookup_eq_nil_of_not_has kd K (by simpa using h)]

theorem ddget_snd (kd : KeyData) (K : FPKey) :
    ∃ ext, (ddget kd K).2 = kd ++ ext ∧ ∀ e ∈ ext, e.2 = ([] : Counter) := by
  unfold ddget
  by_cases h : kdHas kd K
  · exact ⟨[], by simp [if_pos h]⟩
  · exact ⟨[(K, [])], by simp [if_neg h]⟩

theorem kdlookup_append (kd ext : KeyData) (J : FPKey) :
    kdlookup (kd ++ ext) J =
      if kdHas kd J then kdlookup kd J else kdlookup ext J := by
  induction kd with
  | nil => simp [kdlookup, kdHas]
  | cons e rest ih =>
      simp only [List.cons_append, kdlookup, kdHas]
      by_cases h : e.1 = J
      · simp [h]
      · by_cases hh : kdHas rest J
        · simp [hh, h, ih]
        · simp [hh, h, ih]

/-- Appending entries that all carry empty counters never changes the
frequencies read through `kdlookup`/`cget`. -/
theorem cget_kdlookup_append_empty (kd ext : KeyData) (J : FPKey) (n : Nat)
    (hext : ∀ e ∈ ext, e.2 = ([] : Counter)) :
    cget (kdlookup (kd ++ ext) J) n = cget (kdlookup kd J) n := by
  rw [kdlookup_append]
  by_cases h : kdHas kd J
  · rw [if_pos h]
  · rw [if_neg h, kdlookup_eq_nil_of_not_has kd J (by simpa using h)]
    induction ext with
    | nil => rfl
    | cons e rest ih =>
        simp only [kdlookup]
        by_cases he : e.1 = J
        · rw [if_pos he, hext e (List.mem_cons_self ..)]
        · rw [if_neg he]
          exact ih fun x hx => hext x (List.mem_cons_of_mem _ hx)

theorem observationsOf_append (kd ext : KeyData) :
    observationsOf (kd ++ ext) = observationsOf kd + observationsOf ext := by
  simp [observationsOf]

theorem observationsOf_kdInc (kd : KeyData) (K : FPKey) (cnt : Nat) :
    observationsOf (kdInc kd K cnt) = observationsOf kd + cnt := by
  induction kd with
  | nil => simp [kdInc, observationsOf, counterSum, cinc, cincBy]
  | cons e rest ih =>
      by_cases h : e.1 = K
      · simp only [kdInc, if_pos h, observationsOf, List.map_cons, List.sum_cons,
          counterSum_cinc]
        omega
      · simp only [kdInc, if_neg h, observationsOf, List.map_cons, List.sum_cons] at *
        omega

/-! ## Accumulation facts about `MolLL.fit` -/

theorem observationsOf_fragFold (fp : FP) (kd : KeyData) :
    observationsOf (fp.foldl (fun kd p => kdInc kd (FPKey.frag p.1) p.2) kd) =
      observationsOf kd + fpTotal fp := by
  induction fp generalizing kd with
  | nil => simp [fpTotal]
  | cons p rest ih =>
      simp only [List.foldl_cons, ih, observationsOf_kdInc, fpTotal, List.map_cons,
        List.sum_cons]
      omega

theorem observationsOf_processMol (kd : KeyData) (fp : FP) :
    observationsOf (MolLL.processMol kd fp) = observationsOf kd + 2 * fpTotal fp := by
  unfold MolLL.processMol
  rw [observationsOf_kdInc, observationsOf_fragFold]
  omega

/-- The raw observation count of a fitted `MolLL` is exactly twice the total
number of fragment occurrences of the training set: every occurrence is
counted once under its own fragment key and once under the reserved
`"SampleObservationSum"` key. -/
theorem observationsOf_accumulate (mols : List FP) :
    observationsOf (MolLL.accumulate mols) = 2 * totalOcc mols := by
  suffices h : ∀ kd, observationsOf (mols.foldl MolLL.processMol kd) =
      observationsOf kd + 2 * totalOcc mols by
    simpa [MolLL.accumulate, observationsOf] using h []
  induction mols with
  | nil => simp [totalOcc]
  | cons m rest ih =>
      intro kd
      simp only [List.foldl_cons, ih, observationsOf_processMol, totalOcc,
        List.map_cons, List.sum_cons]
      omega

/-- The per-fragment accumulation loop of one molecule never touches the
reserved `"SampleObservationSum"` counter. -/
theorem kdlookup_fragFold_sos (fp : FP) (kd : KeyData) :
    kdlookup (fp.foldl (fun kd p => kdInc kd (FPKey.frag p.1) p.2) kd) FPKey.sos =
      kdlookup kd FPKey.sos := by
  induction fp generalizing kd with
  | nil => rfl
  | cons p rest ih =>
      simp only [List.foldl_cons, ih, kdlookup_kdInc]
      rw [if_neg (by simp)]

theorem counterSum_kdlookup_fragFold (fp : FP) (kd : KeyData) (K : FPKey) :
    counterSum (kdlookup (fp.foldl (fun kd p => kdInc kd (FPKey.frag p.1) p.2) kd) K) ≤
      counterSum (kdlookup kd K) + fpTotal fp := by
  induction fp generalizing kd with
  | nil => simp [fpTotal]
  | cons p rest ih =>
      simp only [List.foldl_cons]
      refine le_trans (ih _) ?_
      rw [kdlookup_kdInc]
      by_cases h : K = FPKey.frag p.1
      · rw [if_pos h, counterSum_cinc, h]
        simp only [fpTotal, List.map_cons, List.sum_cons]
        omega
      · rw [if_neg h]
        simp only [fpTotal, List.map_cons, List.sum_cons]
        omega

/-- Each inner counter of the raw accumulated statistics sums (over
`count * frequency`) to at most the total fragment occurrences of the
training set: a fragment key receives at most `sum(fp.values())` per
molecule, and the reserved key exactly that. -/
theorem counterSum_kdlookup_accumulate (mols : List FP) (K : FPKey) :
    counterSum (kdlookup (MolLL.accumulate mols) K) ≤ totalOcc mols := by
  suffices h : ∀ kd, counterSum (kdlookup (mols.foldl MolLL.processMol kd) K) ≤
      counterSum (kdlookup kd K) + totalOcc mols by
    simpa [MolLL.accumulate, kdlookup, counterSum] using h []
  induction mols with
  | nil => simp [totalOcc]
  | cons m rest ih =>
      intro kd
      refine le_trans (ih _) ?_
      have hstep : counterSum (kdlookup (MolLL.processMol kd m) K) ≤
          counterSum (kdlookup kd K) + fpTotal m := by
        unfold MolLL.processMol
        rw [kdlookup_kdInc]
        by_cases h : K = FPKey.sos
        · rw [if_pos h, counterSum_cinc, h, kdlookup_fragFold_sos]
        · rw [if_neg h]
          exact counterSum_kdlookup_fragFold m kd K
      simp only [totalOcc, List.map_cons, List.sum_cons] at *
      omega

theorem one_le_freq_kdInc (kd : KeyData) (K : FPKey) (cnt : Nat)
    (h : ∀ J, ∀ p ∈ kdlookup kd J, 1 ≤ p.2) :
    ∀ J, ∀ p ∈ kdlookup (kdInc kd K cnt) J, 1 ≤ p.2 := by
  intro J p hp
  rw [kdlookup_kdInc] at hp
  by_cases hJ : J = K
  · rw [if_pos hJ] at hp
    exact one_le_of_mem_cinc _ _ (h K) p hp
  · rw [if_neg hJ] at hp
    exact h J p hp

/-- Every frequency stored in the raw accumulated statistics is at least 1:
entries only appear through increments. -/
theorem one_le_freq_accumulate (mols : List FP) :
    ∀ J, ∀ p ∈ kdlookup (MolLL.accumulate mols) J, 1 ≤ p.2 := by
  suffices h : ∀ kd, (∀ J, ∀ p ∈ kdlookup kd J, 1 ≤ p.2) →
      ∀ J, ∀ p ∈ kdlookup (mols.foldl MolLL.processMol kd) J, 1 ≤ p.2 by
    exact h [] (by intro J p hp; simp [kdlookup] at hp)
  induction mols with
  | nil => intro kd hkd; simpa using hkd
  | cons m rest ih =>
      intro kd hkd
      simp only [List.foldl_cons]
      refine ih _ ?_
      unfold MolLL.processMol
      refine one_le_freq_kdInc _ _ _ ?_
      clear ih
      induction m generalizing kd with
      | nil => simpa using hkd
      | cons p rest2 ih2 =>
          simp only [List.foldl_cons]
          exact ih2 _ (one_le_freq_kdInc _ _ _ hkd)

/-- In a counter whose frequencies are all positive and whose
`count * frequency` sum is zero, every key is zero, so `max(keys)` is 0. -/
theorem maxKey_eq_zero_of_counterSum_eq_zero (c : Counter)
    (hf : ∀ p ∈ c, 1 ≤ p.2) (hs : counterSum c = 0) : maxKey c = 0 := by
  induction c with
  | nil => rfl
  | cons p rest ih =>
      rw [counterSum_cons] at hs
      have hp2 := hf p (List.mem_cons_self ..)
      have h1 : p.1 = 0 := by
        have := Nat.eq_zero_of_add_eq_zero_right hs
        exact (Nat.mul_eq_zero.mp this).resolve_right (by omega)
      have := ih (fun q hq => hf q (List.mem_cons_of_mem _ hq))
        (Nat.eq_zero_of_add_eq_zero_left hs)
      simp [maxKey] at this ⊢
      omega

/-! ## Facts about the geometric-mean smoother -/

theorem shift_pos (x : Nat) : (0 : ℝ) < (x : ℝ) + 0.15 := by positivity

/-- The smoothed frequency is the ceiling of a positive real, hence ≥ 1. -/
theorem one_le_geomSmooth (a b c : Nat) : 1 ≤ MolLL.geomSmooth a b c := by
  unfold MolLL.geomSmooth
  have h : (0 : ℤ) < ⌈Real.exp ((Real.log ((a : ℝ) + 0.15) + Real.log ((b : ℝ) + 0.15) +
      Real.log ((c : ℝ) + 0.15)) / 3)⌉ := Int.ceil_pos.mpr (Real.exp_pos _)
  omega

/-- The geometric mean of three values is at most their maximum, so the
smoothed frequency is at most the largest neighbour frequency plus one. -/
theorem geomSmooth_le_max (a b c : Nat) :
    MolLL.geomSmooth a b c ≤ max a (max b c) + 1 := by
  unfold MolLL.geomSmooth
  set M : Nat := max a (max b c) with hM
  have hle : ∀ x : Nat, x ≤ M →
      Real.log ((x : ℝ) + 0.15) ≤ Real.log ((M : ℝ) + 0.15) := by
    intro x hx
    rw [Real.log_le_log_iff (shift_pos x) (shift_pos M)]
    have : (x : ℝ) ≤ (M : ℝ) := Nat.cast_le.mpr hx
    linarith
  have ha := hle a (le_max_left _ _)
  have hb := hle b (le_trans (le_max_left _ _) (le_max_right _ _))
  have hc := hle c (le_trans (le_max_right _ _) (le_max_right _ _))
  have hexp : Real.exp ((Real.log ((a : ℝ) + 0.15) + Real.log ((b : ℝ) + 0.15) +
      Real.log ((c : ℝ) + 0.15)) / 3) ≤ (M : ℝ) + 0.15 := by
    calc Real.exp ((Real.log ((a : ℝ) + 0.15) + Real.log ((b : ℝ) + 0.15) +
            Real.log ((c : ℝ) + 0.15)) / 3)
        ≤ Real.exp (Real.log ((M : ℝ) + 0.15)) :=
          Real.exp_le_exp.mpr (by linarith)
      _ = (M : ℝ) + 0.15 := Real.exp_log (shift_pos M)
  have hceil : ⌈Real.exp ((Real.log ((a : ℝ) + 0.15) + Real.log ((b : ℝ) + 0.15) +
      Real.log ((c : ℝ) + 0.15)) / 3)⌉ ≤ (M : ℤ) + 1 := by
    rw [Int.ceil_le]
    push_cast
    linarith
  omega

/-- When the product of the three shifted neighbour frequencies is at most 1,
the geometric mean lies in `(0, 1]` and its ceiling is exactly 1. -/
theorem geomSmooth_eq_one (a b c : Nat)
    (h : ((a : ℝ) + 0.15) * ((b : ℝ) + 0.15) * ((c : ℝ) + 0.15) ≤ 1) :
    MolLL.geomSmooth a b c = 1 := by
  unfold MolLL.geomSmooth
  have hsum : Real.log ((a : ℝ) + 0.15) + Real.log ((b : ℝ) + 0.15) +
      Real.log ((c : ℝ) + 0.15) ≤ 0 := by
    rw [← Real.log_mul (ne_of_gt (shift_pos a)) (ne_of_gt (shift_pos b)),
      ← Real.log_mul (by positivity) (ne_of_gt (shift_pos c))]
    exact Real.log_nonpos (by positivity) h
  have hx1 : Real.exp ((Real.log ((a : ℝ) + 0.15) + Real.log ((b : ℝ) + 0.15) +
      Real.log ((c : ℝ) + 0.15)) / 3) ≤ 1 := Real.exp_le_one_iff.mpr (by linarith)
  have hx0 := Real.exp_pos ((Real.log ((a : ℝ) + 0.15) + Real.log ((b : ℝ) + 0.15) +
      Real.log ((c : ℝ) + 0.15)) / 3)
  have hceil : ⌈Real.exp ((Real.log ((a : ℝ) + 0.15) + Real.log ((b : ℝ) + 0.15) +
      Real.log ((c : ℝ) + 0.15)) / 3)⌉ = (1 : ℤ) := by
    rw [Int.ceil_eq_iff]
    push_cast
    constructor <;> linarith
  rw [hceil]
  rfl

/-! ## Lookup structure of a smoothed counter -/

theorem cget_map_keyed (l : List Nat) (f : Nat → Nat) (j : Nat) :
    cget (l.map fun k => (k, f k)) j = if j ∈ l then f j else 0 := by
  induction l with
  | nil => simp [cget]
  | cons a rest ih =>
      simp only [List.map_cons, cget, List.mem_cons]
      by_cases h : a = j
      · subst h; simp
      · rw [if_neg h, ih]
        by_cases hm : j ∈ rest
        · simp [hm]
        · simp [hm, Ne.symm h]

theorem cget_smooth_counter_one (c : Counter) :
    cget (MolLL.smooth_counter c) 1 = cget c 1 := by
  simp [MolLL.smooth_counter, cget]

theorem cget_smooth_counter_mid (c : Counter) (k : Nat) (h2 : 2 ≤ k)
    (hk : k ≤ maxKey c) :
    cget (MolLL.smooth_counter c) k =
      MolLL.geomSmooth (cget c (k - 1)) (cget c k) (cget c (k + 1)) := by
  unfold MolLL.smooth_counter
  simp only [cget]
  rw [if_neg (by omega : ¬ (1 = k)), cget_map_keyed, if_pos]
  exact List.mem_range'_1.mpr ⟨h2, by omega⟩

theorem cget_smooth_counter_beyond (c : Counter) (k : Nat) (h2 : 2 ≤ k)
    (hk : maxKey c < k) : cget (MolLL.smooth_counter c) k = 0 := by
  unfold MolLL.smooth_counter
  simp only [cget]
  rw [if_neg (by omega : ¬ (1 = k)), cget_map_keyed, if_neg]
  intro hmem
  rw [List.mem_range'_1] at hmem
  omega

theorem smooth_counter_keys (c : Counter) (h1 : 1 ≤ maxKey c) :
    (MolLL.smooth_counter c).map Prod.fst = List.range' 1 (maxKey c) := by
  have : maxKey c = (maxKey c - 1) + 1 := by omega
  rw [this, List.range'_succ]
  simp [MolLL.smooth_counter, List.map_map, Function.comp_def]

theorem one_le_maxKey (c : Counter) (hne : c ≠ []) (hpos : ∀ p ∈ c, 1 ≤ p.1) :
    1 ≤ maxKey c := by
  match c with
  | p :: rest =>
      have := hpos p (List.mem_cons_self ..)
      simp only [maxKey, List.map_cons, List.foldr_cons]
      omega

/-- Every value of a smoothed counter is at most the raw `count * frequency`
sum of the counter it smooths, plus 1. -/
theorem cget_smooth_counter_le (c : Counter) (k : Nat) :
    cget (MolLL.smooth_counter c) k ≤ counterSum c + 1 := by
  by_cases h1 : k = 1
  · subst h1
    rw [cget_smooth_counter_one]
    have := cget_le_counterSum c 1 le_rfl
    omega
  by_cases h2 : 2 ≤ k ∧ k ≤ maxKey c
  · rw [cget_smooth_counter_mid c k h2.1 h2.2]
    refine le_trans (geomSmooth_le_max _ _ _) ?_
    have ha := cget_le_counterSum c (k - 1) (by omega)
    have hb := cget_le_counterSum c k (by omega)
    have hc := cget_le_counterSum c (k + 1) (by omega)
    omega
  · rcases Nat.lt_or_ge k 2 with hlt | hge
    · have hk0 : k = 0 := by omega
      subst hk0
      have h0 : cget (MolLL.smooth_counter c) 0 = 0 := by
        unfold MolLL.smooth_counter
        simp only [cget]
        rw [if_neg (by omega : ¬ (1 = 0)), cget_map_keyed, if_neg]
        intro hmem
        rw [List.mem_range'_1] at hmem
        omega
      rw [h0]
      omega
    · rw [cget_smooth_counter_beyond c k hge (by omega)]
      omega

/-- A counter with positive frequencies and zero `count * frequency` sum
smooths to a counter that reads 0 everywhere. -/
theorem cget_smooth_counter_zero (c : Counter) (hf : ∀ p ∈ c, 1 ≤ p.2)
    (hs : counterSum c = 0) (k : Nat) : cget (MolLL.smooth_counter c) k = 0 := by
  have hmax := maxKey_eq_zero_of_counterSum_eq_zero c hf hs
  by_cases h1 : k = 1
  · subst h1
    rw [cget_smooth_counter_one]
    exact cget_eq_zero_of_counterSum_eq_zero c 1 le_rfl hs
  · unfold MolLL.smooth_counter
    simp only [cget]
    rw [if_neg (fun e => h1 e.symm), cget_map_keyed, if_neg]
    intro hmem
    rw [List.mem_range'_1] at hmem
    omega

/-! ## Claims -/

/-- C1: the `CountDistributionModel` smoothing pass keeps the raw frequency
at count 1 unmodified and, for every count from 2 up to the maximum observed
count, stores the ceiling of the geometric mean of the raw frequencies at
`count-1`, `count`, `count+1` (0 when absent), each incremented by 0.15; in
particular for the raw histogram `{1:5, 2:0, 3:1}` the smoothed value at 2
is `ceil(exp(mean(ln([5.15, 0.15, 1.15]))))`. -/
theorem C1_smoothing_rule (c : Counter) (k : Nat) (h2 : 2 ≤ k)
    (hk : k ≤ maxKey c) :
    cget (MolLL.smooth_counter c) 1 = cget c 1 ∧
    cget (MolLL.smooth_counter c) k =
      (⌈Real.exp ((Real.log ((cget c (k - 1) : ℝ) + 0.15) +
          Real.log ((cget c k : ℝ) + 0.15) +
          Real.log ((cget c (k + 1) : ℝ) + 0.15)) / 3)⌉).toNat ∧
    (cget (MolLL.smooth_counter [(1, 5), (2, 0), (3, 1)]) 2 : ℤ) =
      ⌈Real.exp ((Real.log 5.15 + Real.log 0.15 + Real.log 1.15) / 3)⌉ := by
  refine ⟨cget_smooth_counter_one c, ?_, ?_⟩
  · rw [cget_smooth_counter_mid c k h2 hk]
    rfl
  · rw [cget_smooth_counter_mid [(1, 5), (2, 0), (3, 1)] 2 le_rfl (by decide)]
    have hc1 : cget [(1, 5), (2, 0), (3, 1)] (2 - 1) = 5 := by decide
    have hc2 : cget [(1, 5), (2, 0), (3, 1)] 2 = 0 := by decide
    have hc3 : cget [(1, 5), (2, 0), (3, 1)] (2 + 1) = 1 := by decide
    rw [hc1, hc2, hc3]
    unfold MolLL.geomSmooth
    rw [Int.toNat_of_nonneg (le_of_lt (Int.ceil_pos.mpr (Real.exp_pos _)))]
    norm_num

theorem C1_smoothing_rule_witness :
    (2 ≤ 2 ∧ 2 ≤ maxKey [(1, 5), (2, 0), (3, 1)]) ∧
    (cget (MolLL.smooth_counter [(1, 5), (2, 0), (3, 1)]) 1 =
        cget [(1, 5), (2, 0), (3, 1)] 1 ∧
    cget (MolLL.smooth_counter [(1, 5), (2, 0), (3, 1)]) 2 =
      (⌈Real.exp ((Real.log ((cget [(1, 5), (2, 0), (3, 1)] (2 - 1) : ℝ) + 0.15) +
          Real.log ((cget [(1, 5), (2, 0), (3, 1)] 2 : ℝ) + 0.15) +
          Real.log ((cget [(1, 5), (2, 0), (3, 1)] (2 + 1) : ℝ) + 0.15)) / 3)⌉).toNat ∧
    (cget (MolLL.smooth_counter [(1, 5), (2, 0), (3, 1)]) 2 : ℤ) =
      ⌈Real.exp ((Real.log 5.15 + Real.log 0.15 + Real.log 1.15) / 3)⌉) :=
  ⟨⟨le_rfl, by decide⟩, C1_smoothing_rule [(1, 5), (2, 0), (3, 1)] 2 le_rfl (by decide)⟩

/-- C10: for a non-empty raw histogram with all count keys at least 1, the
smoothed counter has key list exactly `1, ..., max`, every smoothed value at
counts 2 through the maximum is at least 1, and counts beyond the raw
maximum read 0. -/
theorem C10_smoothed_support (c : Counter) (hne : c ≠ [])
    (hkeys : ∀ p ∈ c, 1 ≤ p.1) :
    (MolLL.smooth_counter c).map Prod.fst = List.range' 1 (maxKey c) ∧
    (∀ k, 2 ≤ k → k ≤ maxKey c → 1 ≤ cget (MolLL.smooth_counter c) k) ∧
    (∀ k, maxKey c < k → cget (MolLL.smooth_counter c) k = 0) := by
  have h1 := one_le_maxKey c hne hkeys
  refine ⟨smooth_counter_keys c h1, ?_, ?_⟩
  · intro k hk2 hkm
    rw [cget_smooth_counter_mid c k hk2 hkm]
    exact one_le_geomSmooth _ _ _
  · intro k hk
    exact cget_smooth_counter_beyond c k (by omega) hk

theorem C10_smoothed_support_witness :
    (([(2, 3)] : Counter) ≠ [] ∧ ∀ p ∈ ([(2, 3)] : Counter), 1 ≤ p.1) ∧
    ((MolLL.smooth_counter [(2, 3)]).map Prod.fst = List.range' 1 (maxKey [(2, 3)]) ∧
    (∀ k, 2 ≤ k → k ≤ maxKey [(2, 3)] → 1 ≤ cget (MolLL.smooth_counter [(2, 3)]) k) ∧
    (∀ k, maxKey [(2, 3)] < k → cget (MolLL.smooth_counter [(2, 3)]) k = 0)) :=
  ⟨⟨by decide, by decide⟩, C10_smoothed_support [(2, 3)] (by decide) (by decide)⟩

/-- C2: fitting the `FrequencyModel` on fingerprints `{1:2, 2:1}` and
`{1:1, 3:3}` with smoothing 0.1, estimated keyspace 10 and alpha 0 yields
key statistics `{1:3, 2:1, 3:3}` and 7 observations, and scoring `{1:1}`
returns exactly `ln((3+0.1)/(7+1.0))`. -/
theorem C2_frequency_scenario :
    (AtomLL.fit (AtomLL.init 0.1 10 0 1) [[(1, 2), (2, 1)], [(1, 1), (3, 3)]]).key_data =
      [(1, 3), (2, 1), (3, 3)] ∧
    (AtomLL.fit (AtomLL.init 0.1 10 0 1) [[(1, 2), (2, 1)], [(1, 1), (3, 3)]]).n_observations = 7 ∧
    AtomLL.calculate_ll (AtomLL.fit (AtomLL.init 0.1 10 0 1) [[(1, 2), (2, 1)], [(1, 1), (3, 3)]])
      [(1, 1)] = some (Real.log ((3 + 0.1) / (7 + 1.0))) := by
  refine ⟨by decide, by decide, ?_⟩
  have hkd : (AtomLL.fit (AtomLL.init 0.1 10 0 1)
      [[(1, 2), (2, 1)], [(1, 1), (3, 3)]]).key_data = [(1, 3), (2, 1), (3, 3)] := by decide
  have hn : (AtomLL.fit (AtomLL.init 0.1 10 0 1)
      [[(1, 2), (2, 1)], [(1, 1), (3, 3)]]).n_observations = 7 := by decide
  have halpha : (AtomLL.fit (AtomLL.init 0.1 10 0 1)
      [[(1, 2), (2, 1)], [(1, 1), (3, 3)]]).alpha = 0 := rfl
  have hsm : (AtomLL.fit (AtomLL.init 0.1 10 0 1)
      [[(1, 2), (2, 1)], [(1, 1), (3, 3)]]).smoothing = 0.1 := rfl
  have hek : (AtomLL.fit (AtomLL.init 0.1 10 0 1)
      [[(1, 2), (2, 1)], [(1, 1), (3, 3)]]).estimated_keyspace = 10 := rfl
  have hlap : laplace (cget [(1, 3), (2, 1), (3, 3)] 1) 0.1 10 7 = (3 + 0.1) / (7 + 1.0) := by
    have h3 : cget [(1, 3), (2, 1), (3, 3)] 1 = 3 := by decide
    rw [h3]
    unfold laplace
    norm_num
  unfold AtomLL.calculate_ll
  rw [hkd, hn, halpha, hsm, hek]
  simp only [List.map_cons, List.map_nil, List.sum_cons, List.sum_nil, hlap]
  have hpow : ((fpTotal [(1, 1)] : ℕ) : ℝ) ^ (0 : ℝ) = 1 := Real.rpow_zero _
  rw [hpow, if_neg one_ne_zero]
  norm_num

/-- C3 (counterexample): after `MolLL.fit` on the single fingerprint
`{0:3}`, the observation count is 6 (computed on the raw counters) while the
`count * frequency` sum over the stored (smoothed) key statistics is 10: the
smoothing pass changes the sum, so the claimed invariant fails on the state
`fit` leaves behind. -/
theorem C3_observation_invariant_cex :
    (MolLL.fit (MolLL.init 0.1 10 1 1) [[(0, 3)]]).n_observations ≠
      observationsOf (MolLL.fit (MolLL.init 0.1 10 1 1) [[(0, 3)]]).key_data := by
  have hacc : MolLL.accumulate [[(0, 3)]] =
      [(FPKey.frag 0, [(3, 1)]), (FPKey.sos, [(3, 1)])] := by decide
  have hs : MolLL.smooth_counter [(3, 1)] = [(1, 0), (2, 1), (3, 1)] := by
    unfold MolLL.smooth_counter
    have hr : List.range' 2 (maxKey [(3, 1)] - 1) = [2, 3] := by decide
    rw [hr]
    simp only [List.map_cons, List.map_nil, cget]
    norm_num
    rw [geomSmooth_eq_one 0 0 1 (by norm_num), geomSmooth_eq_one 0 1 0 (by norm_num)]
    exact ⟨rfl, rfl⟩
  have hn : (MolLL.fit (MolLL.init 0.1 10 1 1) [[(0, 3)]]).n_observations = 6 := by decide
  have hkd : (MolLL.fit (MolLL.init 0.1 10 1 1) [[(0, 3)]]).key_data =
      [(FPKey.frag 0, [(1, 0), (2, 1), (3, 1)]), (FPKey.sos, [(1, 0), (2, 1), (3, 1)])] := by
    show MolLL.smoothAll (MolLL.accumulate [[(0, 3)]]) = _
    rw [hacc]
    unfold MolLL.smoothAll
    simp only [List.map_cons, List.map_nil, hs]
  rw [hn, hkd]
  decide

/-- C3 (amended): after `MolLL.fit` the observation count equals the
`count * frequency` sum over the raw inner counters as accumulated before
the smoothing pass replaced them, which is exactly twice the total number of
fragment occurrences in the training set. -/
theorem C3_observation_invariant (s : MolState) (mols : List FP) :
    (MolLL.fit s mols).n_observations = observationsOf (MolLL.accumulate mols) ∧
    (MolLL.fit s mols).n_observations = 2 * totalOcc mols :=
  ⟨rfl, observationsOf_accumulate mols⟩

theorem cget_kdlookup_ddget (kd : KeyData) (K J : FPKey) (n : Nat) :
    cget (kdlookup (ddget kd K).2 J) n = cget (kdlookup kd J) n := by
  obtain ⟨ext, he, hext⟩ := ddget_snd kd K
  rw [he, cget_kdlookup_append_empty _ _ _ _ hext]

/-- The scoring loop only ever appends entries with empty counters to the
key data (the `defaultdict` insertions for unseen keys). -/
theorem scoreLoop_key_data (sm ek : ℝ) (nobs : Nat) (items : List (FPKey × Nat))
    (kd : KeyData) :
    ∃ ext, (MolLL.scoreLoop sm ek nobs items kd).2.2 = kd ++ ext ∧
      ∀ e ∈ ext, e.2 = ([] : Counter) := by
  induction items generalizing kd with
  | nil => exact ⟨[], by simp [MolLL.scoreLoop], by simp⟩
  | cons it rest ih =>
      obtain ⟨ext1, he1, hx1⟩ := ddget_snd kd it.1
      obtain ⟨ext2, he2, hx2⟩ := ih (ddget kd it.1).2
      refine ⟨ext1 ++ ext2, ?_, ?_⟩
      · show (MolLL.scoreLoop sm ek nobs rest (ddget kd it.1).2).2.2 = _
        rw [he2, he1, List.append_assoc]
      · intro e he
        rcases List.mem_append.mp he with h | h
        · exact hx1 e h
        · exact hx2 e h

/-- The accumulated `atom_count` of the scoring loop is the sum of the
`counts` values of the key list, independent of the key data. -/
theorem scoreLoop_atom_count (sm ek : ℝ) (nobs : Nat) (items : List (FPKey × Nat))
    (kd : KeyData) :
    (MolLL.scoreLoop sm ek nobs items kd).2.1 = (items.map Prod.snd).sum := by
  induction items generalizing kd with
  | nil => rfl
  | cons it rest ih => simp [MolLL.scoreLoop, ih]

/-- The accumulated log-likelihood of the scoring loop depends on the key
data only through the frequencies its lookups read. -/
theorem scoreLoop_ll_congr (sm ek : ℝ) (nobs : Nat) (items : List (FPKey × Nat))
    (kd1 kd2 : KeyData)
    (h : ∀ K n, cget (kdlookup kd1 K) n = cget (kdlookup kd2 K) n) :
    (MolLL.scoreLoop sm ek nobs items kd1).1 =
      (MolLL.scoreLoop sm ek nobs items kd2).1 := by
  induction items generalizing kd1 kd2 with
  | nil => rfl
  | cons it rest ih =>
      show Real.log (laplace (cget (ddget kd1 it.1).1 it.2) sm ek nobs) * (it.2 : ℝ) +
          (MolLL.scoreLoop sm ek nobs rest (ddget kd1 it.1).2).1 = _
      have hstat : cget (ddget kd1 it.1).1 it.2 = cget (ddget kd2 it.1).1 it.2 := by
        rw [ddget_fst, ddget_fst, h]
      have hrec := ih (ddget kd1 it.1).2 (ddget kd2 it.1).2
        (fun K n => by rw [cget_kdlookup_ddget, cget_kdlookup_ddget, h])
      rw [hstat, hrec]
      rfl

theorem scoreEquiv_refl (s : MolState) : ScoreEquiv s s :=
  ⟨rfl, rfl, rfl, rfl, fun _ _ => rfl⟩

/-- Two score-equivalent states yield equal scores on every molecule. -/
theorem calculate_ll_fst_congr (s t : MolState) (h : ScoreEquiv s t) (m : FP) :
    (MolLL.calculate_ll s m).1 = (MolLL.calculate_ll t m).1 := by
  obtain ⟨h1, h2, h3, h4, h5⟩ := h
  unfold MolLL.calculate_ll
  simp only []
  rw [h1, h2, h3, h4]
  have hll := scoreLoop_ll_congr t.smoothing t.estimated_keyspace t.n_observations
    (m.map (fun p => (FPKey.frag p.1, p.2)) ++ [(FPKey.sos, fpTotal m)])
    s.key_data t.key_data h5
  have hac : (MolLL.scoreLoop t.smoothing t.estimated_keyspace t.n_observations
      (m.map (fun p => (FPKey.frag p.1, p.2)) ++ [(FPKey.sos, fpTotal m)])
      s.key_data).2.1 =
      (MolLL.scoreLoop t.smoothing t.estimated_keyspace t.n_observations
      (m.map (fun p => (FPKey.frag p.1, p.2)) ++ [(FPKey.sos, fpTotal m)])
      t.key_data).2.1 := by
    rw [scoreLoop_atom_count, scoreLoop_atom_count]
  rw [hll, hac]

/-- Scoring preserves score-equivalence: the inserted entries are empty. -/
theorem calculate_ll_preserves_equiv (s t : MolState) (h : ScoreEquiv s t) (m : FP) :
    ScoreEquiv (MolLL.calculate_ll s m).2 t := by
  obtain ⟨h1, h2, h3, h4, h5⟩ := h
  refine ⟨h1, h2, h3, h4, ?_⟩
  intro K n
  obtain ⟨ext, he, hx⟩ := scoreLoop_key_data s.smoothing s.estimated_keyspace
    s.n_observations (m.map (fun p => (FPKey.frag p.1, p.2)) ++ [(FPKey.sos, fpTotal m)])
    s.key_data
  show cget (kdlookup (MolLL.scoreLoop s.smoothing s.estimated_keyspace
    s.n_observations _ s.key_data).2.2 K) n = _
  rw [he, cget_kdlookup_append_empty _ _ _ _ hx, h5]

theorem calculate_lls_fst (sM t : MolState) (h : ScoreEquiv t sM) (mols : List FP) :
    (MolLL.calculate_lls t mols).1 =
      mols.map (fun m => (MolLL.calculate_ll sM m).1) := by
  induction mols generalizing t with
  | nil => rfl
  | cons m rest ih =>
      show (MolLL.calculate_ll t m).1 :: (MolLL.calculate_lls (MolLL.calculate_ll t m).2 rest).1 = _
      rw [List.map_cons, calculate_ll_fst_congr t sM h m,
        ih _ (calculate_ll_preserves_equiv t sM h m)]

/-- C4 (counterexample): scoring is not mutation-free.  After fitting
`MolLL` on the fingerprint `{0:1}` and scoring the molecule `{1:1}`, whose
fragment key 1 is absent from the fitted statistics, the `defaultdict`
lookup has inserted key 1 (with an empty counter) into the key data: the
fitted statistics after the score call differ from those before it. -/
theorem C4_frame_cex :
    (MolLL.calculate_ll (MolLL.fit (MolLL.init 0.1 10 1 1) [[(0, 1)]]) [(1, 1)]).2.key_data ≠
      (MolLL.fit (MolLL.init 0.1 10 1 1) [[(0, 1)]]).key_data := by
  decide

/-- C4 (amended): `AtomLL` scoring reads but never writes (its `Counter`
lookups do not insert).  `MolLL` scoring leaves the configuration, the
observation count and every stored entry unchanged and returns unchanged
score values afterwards, but it appends an entry with an empty counter to
`keyStatistics` for every looked-up fragment key that was absent
(`defaultdict` insertion), so the fitted state is not literally preserved. -/
theorem C4_frame (s : MolState) (m : FP) :
    (MolLL.calculate_ll s m).2.smoothing = s.smoothing ∧
    (MolLL.calculate_ll s m).2.estimated_keyspace = s.estimated_keyspace ∧
    (MolLL.calculate_ll s m).2.alpha = s.alpha ∧
    (MolLL.calculate_ll s m).2.radius = s.radius ∧
    (MolLL.calculate_ll s m).2.n_observations = s.n_observations ∧
    (∃ ext, (MolLL.calculate_ll s m).2.key_data = s.key_data ++ ext ∧
      ∀ e ∈ ext, e.2 = ([] : Counter)) ∧
    ∀ m2, (MolLL.calculate_ll (MolLL.calculate_ll s m).2 m2).1 =
      (MolLL.calculate_ll s m2).1 := by
  refine ⟨rfl, rfl, rfl, rfl, rfl, ?_, ?_⟩
  · exact scoreLoop_key_data _ _ _ _ _
  · intro m2
    exact calculate_ll_fst_congr _ _ (calculate_ll_preserves_equiv s s (scoreEquiv_refl s) m) m2

/-- C9: `calculate_lls` returns one score per molecule, in input order, each
equal to scoring that molecule against the initial fitted state (for
`MolLL`, the empty-counter insertions threaded through the batch do not
change any later score value). -/
theorem C9_batch_order (sA : AtomState) (sM : MolState) (mols : List FP) :
    (AtomLL.calculate_lls sA mols = mols.map (AtomLL.calculate_ll sA) ∧
     (AtomLL.calculate_lls sA mols).length = mols.length) ∧
    ((MolLL.calculate_lls sM mols).1 = mols.map (fun m => (MolLL.calculate_ll sM m).1) ∧
     (MolLL.calculate_lls sM mols).1.length = mols.length) := by
  have hM := calculate_lls_fst sM sM (scoreEquiv_refl sM) mols
  exact ⟨⟨rfl, by simp [AtomLL.calculate_lls]⟩, hM, by rw [hM]; simp⟩

/-- C7 (counterexample): scoring a molecule with an empty fingerprint does
not fail when the atom-count correction exponent is 0: Python evaluates
`0 ** 0` to 1, so `ll / atom_count ** alpha` is `0.0 / 1` and the score is
`0.0` rather than a `ZeroDivisionError`. -/
theorem C7_zero_fragments_cex :
    AtomLL.calculate_ll (AtomLL.fit (AtomLL.init 0.1 10 0 1) [[(0, 1)]]) [] = some 0 := by
  unfold AtomLL.calculate_ll
  simp only [List.map_nil, List.sum_nil]
  have hpow : ((fpTotal ([] : FP) : ℕ) : ℝ) ^
      (AtomLL.fit (AtomLL.init 0.1 10 0 1) [[(0, 1)]]).alpha = 1 := by
    show ((0 : ℕ) : ℝ) ^ (0 : ℝ) = 1
    exact Real.rpow_zero _
  rw [hpow, if_neg one_ne_zero]
  norm_num

/-- C7 (amended): for any state whose atom-count correction exponent is
nonzero (the default is 1), scoring a molecule whose fingerprint has zero
total fragment occurrences fails with the division-by-zero error:
`atom_count ** alpha` is `0 ** alpha = 0`.  With exponent 0 the score is
`0.0` instead (see the counterexample). -/
theorem C7_zero_fragments (sA : AtomState) (sM : MolState) (m : FP)
    (hA : sA.alpha ≠ 0) (hM : sM.alpha ≠ 0) (h0 : fpTotal m = 0) :
    AtomLL.calculate_ll sA m = none ∧ (MolLL.calculate_ll sM m).1 = none := by
  constructor
  · unfold AtomLL.calculate_ll
    simp only [h0, Nat.cast_zero, Real.zero_rpow hA]
    simp
  · unfold MolLL.calculate_ll
    simp only []
    have hac : (MolLL.scoreLoop sM.smoothing sM.estimated_keyspace sM.n_observations
        (m.map (fun p => (FPKey.frag p.1, p.2)) ++ [(FPKey.sos, fpTotal m)])
        sM.key_data).2.1 = 0 := by
      rw [scoreLoop_atom_count]
      simp [fpTotal, h0, List.map_map, Function.comp_def]
      simpa [fpTotal] using h0
    rw [hac]
    simp only [Nat.cast_zero, Real.zero_rpow hM]
    simp

theorem C7_zero_fragments_witness :
    ((AtomLL.init 0.1 10 1 1).alpha ≠ 0 ∧ (MolLL.init 0.1 10 1 1).alpha ≠ 0 ∧
      fpTotal [] = 0) ∧
    (AtomLL.calculate_ll (AtomLL.init 0.1 10 1 1) [] = none ∧
     (MolLL.calculate_ll (MolLL.init 0.1 10 1 1) []).1 = none) :=
  ⟨⟨by norm_num [AtomLL.init], by norm_num [MolLL.init], rfl⟩,
   C7_zero_fragments (AtomLL.init 0.1 10 1 1) (MolLL.init 0.1 10 1 1) []
    (by norm_num [AtomLL.init]) (by norm_num [MolLL.init]) rfl⟩

/-! ## Likelihood bounds (C6) -/

theorem laplace_denom_pos (sm ek : ℝ) (nobs : Nat) (hs : 0 < sm) (hk : 1 ≤ ek) :
    0 < (nobs : ℝ) + ek * sm := by
  have h1 : sm ≤ ek * sm := le_mul_of_one_le_left hs.le hk
  have h2 : (0 : ℝ) ≤ (nobs : ℝ) := Nat.cast_nonneg _
  linarith

theorem laplace_pos (stat nobs : Nat) (sm ek : ℝ) (hs : 0 < sm) (hk : 1 ≤ ek) :
    0 < laplace stat sm ek nobs := by
  unfold laplace
  apply div_pos
  · have : (0 : ℝ) ≤ (stat : ℝ) := Nat.cast_nonneg _
    linarith
  · exact laplace_denom_pos sm ek nobs hs hk

theorem laplace_le_one (stat nobs : Nat) (sm ek : ℝ) (hs : 0 < sm) (hk : 1 ≤ ek)
    (hstat : stat ≤ nobs) : laplace stat sm ek nobs ≤ 1 := by
  unfold laplace
  rw [div_le_one (laplace_denom_pos sm ek nobs hs hk)]
  have h1 : (stat : ℝ) ≤ (nobs : ℝ) := Nat.cast_le.mpr hstat
  have h2 : sm ≤ ek * sm := le_mul_of_one_le_left hs.le hk
  linarith

theorem laplace_zero_lt_one (nobs : Nat) (sm ek : ℝ) (hs : 0 < sm) (hk : 1 ≤ ek)
    (h : 1 < ek ∨ 1 ≤ nobs) : laplace 0 sm ek nobs < 1 := by
  unfold laplace
  rw [div_lt_one (laplace_denom_pos sm ek nobs hs hk)]
  rcases h with h | h
  · have h1 : sm < ek * sm := by nlinarith
    have h2 : (0 : ℝ) ≤ (nobs : ℝ) := Nat.cast_nonneg _
    push_cast
    linarith
  · have h1 : (1 : ℝ) ≤ (nobs : ℝ) := by exact_mod_cast h
    have h2 : sm ≤ ek * sm := le_mul_of_one_le_left hs.le hk
    push_cast
    linarith

theorem kdlookup_smoothAll (kd : KeyData) (K : FPKey) :
    kdlookup (MolLL.smoothAll kd) K =
      if kdHas kd K then MolLL.smooth_counter (kdlookup kd K) else [] := by
  induction kd with
  | nil => simp [MolLL.smoothAll, kdlookup, kdHas]
  | cons e rest ih =>
      show kdlookup ((e.1, MolLL.smooth_counter e.2) :: MolLL.smoothAll rest) K = _
      simp only [kdlookup, kdHas]
      by_cases h : e.1 = K
      · simp [h]
      · rw [if_neg h, ih]
        by_cases hh : kdHas rest K <;> simp [hh, h]

/-- Every smoothed frequency a fitted `MolLL` can look up is at most the
observation count recorded at fit time. -/
theorem stat_le_nobs_mol (mols : List FP) (K : FPKey) (cnt : Nat) :
    cget (kdlookup (MolLL.smoothAll (MolLL.accumulate mols)) K) cnt ≤
      observationsOf (MolLL.accumulate mols) := by
  rw [kdlookup_smoothAll]
  by_cases h : kdHas (MolLL.accumulate mols) K
  · rw [if_pos h]
    have hc := counterSum_kdlookup_accumulate mols K
    have hfreq := one_le_freq_accumulate mols K
    by_cases hS : totalOcc mols = 0
    · have h0 : counterSum (kdlookup (MolLL.accumulate mols) K) = 0 := by omega
      rw [cget_smooth_counter_zero _ hfreq h0]
      exact Nat.zero_le _
    · have hb := cget_smooth_counter_le (kdlookup (MolLL.accumulate mols) K) cnt
      rw [observationsOf_accumulate]
      omega
  · rw [if_neg h]
    simp [cget]

theorem cget_eq_zero_of_not_mem (c : Counter) (k : Nat)
    (h : k ∉ c.map Prod.fst) : cget c k = 0 := by
  induction c with
  | nil => rfl
  | cons p rest ih =>
      simp only [List.map_cons, List.mem_cons] at h
      push_neg at h
      rw [cget, if_neg fun e => h.1 e.symm]
      exact ih h.2

/-- C6 (counterexample): the claim quantifies over every fitted model with
positive smoothing prior, but with `estimated_keyspace = 0` (the
configuration places no lower bound on it) the Laplace likelihood of the
single observed key after fitting on `{0:1}` is `(1+0.1)/(1+0) = 1.1 > 1`. -/
theorem C6_likelihood_cex :
    0 < (0.1 : ℝ) ∧
    1 < laplace (cget (AtomLL.fit (AtomLL.init 0.1 0 1 1) [[(0, 1)]]).key_data 0)
      0.1 0 (AtomLL.fit (AtomLL.init 0.1 0 1 1) [[(0, 1)]]).n_observations := by
  constructor
  · norm_num
  · have h1 : cget (AtomLL.fit (AtomLL.init 0.1 0 1 1) [[(0, 1)]]).key_data 0 = 1 := by
      decide
    have h2 : (AtomLL.fit (AtomLL.init 0.1 0 1 1) [[(0, 1)]]).n_observations = 1 := by
      decide
    rw [h1, h2]
    unfold laplace
    norm_num

/-- C6 (amended): for every model fitted with positive smoothing prior and
`estimated_keyspace ≥ 1`, each Laplace-smoothed likelihood the scorer can
form — `(stat + smoothing) / (n_observations + estimated_keyspace * smoothing)`
over all fragment keys and counts, including absent ones — is strictly
positive (so its logarithm is defined and scoring cannot fail there) and at
most 1; and for a fragment key absent from the fitted statistics the
contribution `log(likelihood) * count` is finite and strictly negative
whenever `estimated_keyspace > 1` or at least one observation was made. -/
theorem C6_likelihood_bounds (sm ek al : ℝ) (r : Nat) (mols : List FP)
    (hs : 0 < sm) (hk : 1 ≤ ek) :
    (∀ key : Nat,
      0 < laplace (cget (AtomLL.fit (AtomLL.init sm ek al r) mols).key_data key) sm ek
          (AtomLL.fit (AtomLL.init sm ek al r) mols).n_observations ∧
      laplace (cget (AtomLL.fit (AtomLL.init sm ek al r) mols).key_data key) sm ek
          (AtomLL.fit (AtomLL.init sm ek al r) mols).n_observations ≤ 1) ∧
    (∀ (K : FPKey) (cnt : Nat),
      0 < laplace (cget (kdlookup (MolLL.fit (MolLL.init sm ek al r) mols).key_data K) cnt)
          sm ek (MolLL.fit (MolLL.init sm ek al r) mols).n_observations ∧
      laplace (cget (kdlookup (MolLL.fit (MolLL.init sm ek al r) mols).key_data K) cnt)
          sm ek (MolLL.fit (MolLL.init sm ek al r) mols).n_observations ≤ 1) ∧
    (∀ key cnt : Nat,
      key ∉ (AtomLL.fit (AtomLL.init sm ek al r) mols).key_data.map Prod.fst →
      1 ≤ cnt →
      (1 < ek ∨ 1 ≤ (AtomLL.fit (AtomLL.init sm ek al r) mols).n_observations) →
      Real.log (laplace (cget (AtomLL.fit (AtomLL.init sm ek al r) mols).key_data key)
        sm ek (AtomLL.fit (AtomLL.init sm ek al r) mols).n_observations) * (cnt : ℝ) < 0) ∧
    (∀ key cnt : Nat,
      kdHas (MolLL.fit (MolLL.init sm ek al r) mols).key_data (FPKey.frag key) = false →
      1 ≤ cnt →
      (1 < ek ∨ 1 ≤ (MolLL.fit (MolLL.init sm ek al r) mols).n_observations) →
      Real.log (laplace
        (cget (kdlookup (MolLL.fit (MolLL.init sm ek al r) mols).key_data (FPKey.frag key)) cnt)
        sm ek (MolLL.fit (MolLL.init sm ek al r) mols).n_observations) * (cnt : ℝ) < 0) := by
  refine ⟨fun key => ?_, fun K cnt => ?_, fun key cnt habs hcnt hor => ?_,
    fun key cnt habs hcnt hor => ?_⟩
  · exact ⟨laplace_pos _ _ sm ek hs hk,
      laplace_le_one _ _ sm ek hs hk (cget_le_csum (AtomLL.accumulate mols) key)⟩
  · exact ⟨laplace_pos _ _ sm ek hs hk,
      laplace_le_one _ _ sm ek hs hk (stat_le_nobs_mol mols K cnt)⟩
  · have h0 : cget (AtomLL.fit (AtomLL.init sm ek al r) mols).key_data key = 0 :=
      cget_eq_zero_of_not_mem _ key habs
    rw [h0]
    have hlt := laplace_zero_lt_one (AtomLL.fit (AtomLL.init sm ek al r) mols).n_observations
      sm ek hs hk hor
    have hpos := laplace_pos 0 (AtomLL.fit (AtomLL.init sm ek al r) mols).n_observations
      sm ek hs hk
    have hlog := Real.log_neg hpos hlt
    have hc : (0 : ℝ) < (cnt : ℝ) := by exact_mod_cast hcnt
    exact mul_neg_of_neg_of_pos hlog hc
  · have h0 : cget (kdlookup (MolLL.fit (MolLL.init sm ek al r) mols).key_data
        (FPKey.frag key)) cnt = 0 := by
      rw [show (MolLL.fit (MolLL.init sm ek al r) mols).key_data =
        MolLL.smoothAll (MolLL.accumulate mols) from rfl] at habs ⊢
      rw [kdlookup_eq_nil_of_not_has _ _ habs]
      rfl
    rw [h0]
    have hlt := laplace_zero_lt_one (MolLL.fit (MolLL.init sm ek al r) mols).n_observations
      sm ek hs hk hor
    have hpos := laplace_pos 0 (MolLL.fit (MolLL.init sm ek al r) mols).n_observations
      sm ek hs hk
    have hlog := Real.log_neg hpos hlt
    have hc : (0 : ℝ) < (cnt : ℝ) := by exact_mod_cast hcnt
    exact mul_neg_of_neg_of_pos hlog hc

theorem C6_likelihood_bounds_witness :
    (0 < (0.1 : ℝ) ∧ 1 ≤ (10 : ℝ)) ∧
    (∀ key : Nat,
      0 < laplace (cget (AtomLL.fit (AtomLL.init 0.1 10 1 1) [[(0, 1)]]).key_data key)
          0.1 10 (AtomLL.fit (AtomLL.init 0.1 10 1 1) [[(0, 1)]]).n_observations ∧
      laplace (cget (AtomLL.fit (AtomLL.init 0.1 10 1 1) [[(0, 1)]]).key_data key)
          0.1 10 (AtomLL.fit (AtomLL.init 0.1 10 1 1) [[(0, 1)]]).n_observations ≤ 1) :=
  ⟨⟨by norm_num, by norm_num⟩,
   (C6_likelihood_bounds 0.1 10 1 1 [[(0, 1)]] (by norm_num) (by norm_num)).1⟩

/-! ## Serialization round-trip lemmas -/

theorem map_digits_roundtrip (l : List (Nat × Nat)) :
    (l.map fun p => (Nat.digits 10 p.1, p.2)).map
      (fun p => (Nat.ofDigits 10 p.1, p.2)) = l := by
  induction l with
  | nil => rfl
  | cons p rest ih =>
      simp only [List.map_cons, ih, Nat.ofDigits_digits]

theorem decKey_encKey (K : FPKey) : MolLL.decKey (MolLL.encKey K) = K := by
  cases K <;> simp [MolLL.decKey, MolLL.encKey, Nat.ofDigits_digits]

theorem mol_keydata_roundtrip (kd : KeyData) :
    (kd.map fun e => (MolLL.encKey e.1, e.2.map fun p => (Nat.digits 10 p.1, p.2))).map
      (fun e => (MolLL.decKey e.1, e.2.map fun p => (Nat.ofDigits 10 p.1, p.2))) = kd := by
  induction kd with
  | nil => rfl
  | cons e rest ih =>
      simp only [List.map_cons, ih, decKey_encKey, map_digits_roundtrip]

/-- C5: serializing a fitted model and loading the record into a fresh model
of the same class reproduces the exact state — configuration, observation
count and key statistics (integer keys restored from their digit-string
encoding, the reserved key kept textual) — so the loaded model scores every
molecule identically. -/
theorem C5_roundtrip (sA freshA : AtomState) (sM freshM : MolState) :
    AtomLL.set_savedict (AtomLL.get_savedict sA) freshA = (sA, none) ∧
    MolLL.set_savedict (MolLL.get_savedict sM) freshM = (sM, none) ∧
    (∀ m, AtomLL.calculate_ll (AtomLL.set_savedict (AtomLL.get_savedict sA) freshA).1 m =
      AtomLL.calculate_ll sA m) ∧
    (∀ m, (MolLL.calculate_ll (MolLL.set_savedict (MolLL.get_savedict sM) freshM).1 m).1 =
      (MolLL.calculate_ll sM m).1) := by
  have hA : AtomLL.set_savedict (AtomLL.get_savedict sA) freshA = (sA, none) := by
    obtain ⟨a1, a2, a3, a4, a5, a6⟩ := sA
    simp only [AtomLL.set_savedict, AtomLL.get_savedict, map_digits_roundtrip,
      if_pos rfl, if_true]
  have hM : MolLL.set_savedict (MolLL.get_savedict sM) freshM = (sM, none) := by
    obtain ⟨b1, b2, b3, b4, b5, b6⟩ := sM
    simp only [MolLL.set_savedict, MolLL.get_savedict, mol_keydata_roundtrip,
      if_pos rfl, if_true]
  exact ⟨hA, hM, fun m => by rw [hA], fun m => by rw [hM]⟩

/-- C8: for any record produced by serialization, loading fails (with the
model-type message, leaving the target untouched) exactly when the tag does
not match the target class; on a matching tag it succeeds and overwrites the
whole state from the record, independent of the previous state,
reconstructing integer keys from their digit strings. -/
theorem C8_type_mismatch (d : SaveDict)
    (himg : (∃ s : AtomState, d = AtomLL.get_savedict s) ∨
      (∃ s : MolState, d = MolLL.get_savedict s)) :
    (∀ t : AtomState, ((AtomLL.set_savedict d t).2 = none ↔ d.Model = "AtomLL")) ∧
    (∀ t : MolState, ((MolLL.set_savedict d t).2 = none ↔ d.Model = "MolLL")) ∧
    (d.Model ≠ "AtomLL" → ∀ t : AtomState, AtomLL.set_savedict d t =
      (t, some ("Save data is of model type " ++ d.Model ++
        ", which cannot be loaded into a model of class AtomLL"))) ∧
    (d.Model ≠ "MolLL" → ∀ t : MolState, MolLL.set_savedict d t =
      (t, some ("Save data is of model type " ++ d.Model ++
        ", which cannot be loaded into a model of class MolLL"))) ∧
    (d.Model = "AtomLL" → ∃ l, d.key_data = KeyDataDump.atomKD l ∧
      ∀ t : AtomState, AtomLL.set_savedict d t =
        ({ smoothing := d.smoothing, estimated_keyspace := d.estimated_keyspace
           alpha := d.alpha, radius := d.radius, n_observations := d.n_observations
           key_data := l.map fun p => (Nat.ofDigits 10 p.1, p.2) }, none)) ∧
    (d.Model = "MolLL" → ∃ l, d.key_data = KeyDataDump.molKD l ∧
      ∀ t : MolState, MolLL.set_savedict d t =
        ({ smoothing := d.smoothing, estimated_keyspace := d.estimated_keyspace
           alpha := d.alpha, radius := d.radius, n_observations := d.n_observations
           key_data := l.map fun e =>
             (MolLL.decKey e.1, e.2.map fun p => (Nat.ofDigits 10 p.1, p.2)) }, none)) := by
  rcases himg with ⟨s, rfl⟩ | ⟨s, rfl⟩
  · refine ⟨fun t => ?_, fun t => ?_, ?_, ?_, ?_, ?_⟩
    · simp [AtomLL.set_savedict, AtomLL.get_savedict]
    · simp [MolLL.set_savedict, AtomLL.get_savedict]
    · intro h
      exact absurd rfl h
    · intro _ t
      simp [MolLL.set_savedict, AtomLL.get_savedict]
    · intro _
      refine ⟨_, rfl, fun t => ?_⟩
      simp only [AtomLL.set_savedict, AtomLL.get_savedict, if_pos rfl, if_true]
    · intro h
      simp [AtomLL.get_savedict] at h
  · refine ⟨fun t => ?_, fun t => ?_, ?_, ?_, ?_, ?_⟩
    · simp [AtomLL.set_savedict, MolLL.get_savedict]
    · simp [MolLL.set_savedict, MolLL.get_savedict]
    · intro _ t
      simp [AtomLL.set_savedict, MolLL.get_savedict]
    · intro h
      exact absurd rfl h
    · intro h
      simp [MolLL.get_savedict] at h
    · intro _
      refine ⟨_, rfl, fun t => ?_⟩
      simp only [MolLL.set_savedict, MolLL.get_savedict, if_pos rfl, if_true]

theorem C8_type_mismatch_witness :
    (∃ s : AtomState, AtomLL.get_savedict (AtomLL.init 0.1 10 1 1) =
      AtomLL.get_savedict s) ∧
    ((AtomLL.set_savedict (AtomLL.get_savedict (AtomLL.init 0.1 10 1 1))
        (AtomLL.init 0.2 20 0 2)).2 = none ↔
      (AtomLL.get_savedict (AtomLL.init 0.1 10 1 1)).Model = "AtomLL") ∧
    ((MolLL.set_savedict (AtomLL.get_savedict (AtomLL.init 0.1 10 1 1))
        (MolLL.init 0.2 20 0 2)).2 = none ↔
      (AtomLL.get_savedict (AtomLL.init 0.1 10 1 1)).Model = "MolLL") :=
  ⟨⟨AtomLL.init 0.1 10 1 1, rfl⟩,
   (C8_type_mismatch _ (Or.inl ⟨AtomLL.init 0.1 10 1 1, rfl⟩)).1 _,
   (C8_type_mismatch _ (Or.inl ⟨AtomLL.init 0.1 10 1 1, rfl⟩)).2.1 _⟩

end Molll
